import Mathlib

/-!
Shallow embedding of the collaborative markdown editor
(src/source/markdown.c, src/source/server.c, src/libs/document.h).

Positions are byte offsets; text is modelled as `List Char`.  The C segment
lists are modelled as Lean lists; a NULL `working_head` is modelled as the
empty working list (the two coincide in the C code: an empty committed list
syncs to a NULL working list).  C return codes are `Int` constants exactly as
in document.h.
-/

set_option linter.unusedVariables false

/-- Segment state from document.h: `COMMITTED_ORIGINAL`, `PENDING_INS`,
`PENDING_DEL`. -/
inductive SegState where
  | original
  | pendingIns
  | pendingDel
deriving DecidableEq

/-- Text segment from document.h: content bytes plus a state tag.  The C
`length` field is always `content.length`. -/
structure Segment where
  content : List Char
  state : SegState
deriving DecidableEq

/-- Document from document.h: committed list, working list, `total_length`,
`current_version`. -/
structure Document where
  committed : List Segment
  working : List Segment
  totalLength : Nat
  version : Nat
deriving DecidableEq

/-- Return code `SUCCESS` from document.h. -/
def SUCCESS : Int := 0

/-- Return code `INVALID_CURSOR_POS` from document.h (the wire result
`INVALID_POSITION`). -/
def INVALID_CURSOR_POS : Int := -1

/-- Return code `DELETED_POSITION` from document.h. -/
def DELETED_POSITION : Int := -2

/-- Return code `OUTDATED_VERSION` from document.h. -/
def OUTDATED_VERSION : Int := -3

/-- The NUL byte, which the C code reads at and past the string terminator. -/
def NUL : Char := Char.ofNat 0

/-- Concatenation of the contents of every segment in a list, in order;
`markdown_flatten` applies this to the committed list (no state filter in the
C loop). -/
def flattenSegs : List Segment → List Char
  | [] => []
  | s :: r => s.content ++ flattenSegs r

/-- Function `markdown_flatten`: flatten the committed list into one string. -/
def markdown_flatten (doc : Document) : List Char :=
  flattenSegs doc.committed

/-- Flatten of a working list ignoring `PENDING_DEL` segments (the view the
spec calls `flatten(working)`). -/
def flattenVisible : List Segment → List Char
  | [] => []
  | s :: r =>
    if s.state = SegState.pendingDel then flattenVisible r
    else s.content ++ flattenVisible r

/-- Byte count of the segments whose state is not `PENDING_INS`: the position
space used by `put_text`, `add_text`, `remove_text` and `find_cursor`. -/
def visLen : List Segment → Nat
  | [] => 0
  | s :: r => (if s.state = SegState.pendingIns then 0 else s.content.length) + visLen r

/-- Total byte count of a segment list. -/
def segsLen : List Segment → Nat
  | [] => 0
  | s :: r => s.content.length + segsLen r

/-- Function `sync_working`: clone the committed list, every copy in state
`COMMITTED_ORIGINAL`. -/
def syncSegs (l : List Segment) : List Segment :=
  l.map (fun s => { content := s.content, state := SegState.original })

/-- The working list an edit operates on: the C helpers start with
`if (!doc->working_head) sync_working(doc);`. -/
def effWorking (doc : Document) : List Segment :=
  if doc.working = [] then syncSegs doc.committed else doc.working

/-- Function `markdown_init`: empty document at version 0. -/
def markdown_init : Document :=
  { committed := [], working := [], totalLength := 0, version := 0 }

/-- Function `markdown_increment_version`: no-op when the working list is
NULL; otherwise promote the working list to committed, dropping
`PENDING_DEL` segments and turning `PENDING_INS` into original, then clear
the working list and bump the version. -/
def markdown_increment_version (doc : Document) : Document :=
  if doc.working = [] then doc
  else
    { doc with
      committed :=
        (doc.working.filter (fun s => s.state ≠ SegState.pendingDel)).map
          (fun s =>
            if s.state = SegState.pendingIns then { s with state := SegState.original } else s),
      working := [],
      version := doc.version + 1 }

/-- Function `validate_version_op` (the NULL-document check is not
representable for a value type). -/
def validate_version_op (doc : Document) (version : Nat) : Int :=
  if version ≠ doc.version then OUTDATED_VERSION else SUCCESS

/-- Function `validate_range_op`: version gate, then `end <= start` is
rejected. -/
def validate_range_op (doc : Document) (version start endPos : Nat) : Int :=
  let r := validate_version_op doc version
  if r ≠ SUCCESS then r
  else if endPos ≤ start then INVALID_CURSOR_POS
  else SUCCESS

/-- Position walk of `put_text`: advance while `seen + cur->length <= pos`
(`seen` grows only over non-`PENDING_INS` segments); then split a visible
segment if the position falls strictly inside it, and place the new segment
before the segment the walk stopped at. -/
def putWalk (pos : Nat) (ins : Segment) : Nat → List Segment → List Segment
  | _, [] => [ins]
  | seen, c :: rest =>
    if seen + c.content.length ≤ pos then
      c :: putWalk pos ins (if c.state = SegState.pendingIns then seen else seen + c.content.length) rest
    else if c.state ≠ SegState.pendingIns ∧ seen < pos ∧ pos < seen + c.content.length then
      { c with content := c.content.take (pos - seen) } :: ins ::
        ({ c with content := c.content.drop (pos - seen) } :: rest)
    else
      ins :: c :: rest

/-- Function `put_text`: materialise the working list, validate
`pos <= total visible length`, then insert via `putWalk`. -/
def put_text (doc : Document) (pos : Nat) (str : List Char) : Int × Document :=
  let w := effWorking doc
  if visLen w < pos then (INVALID_CURSOR_POS, { doc with working := w })
  else
    (SUCCESS,
      { doc with working := putWalk pos { content := str, state := SegState.pendingIns } 0 w })

/-- Position walk of `add_text`: `PENDING_INS` segments are skipped
unconditionally (so a new segment lands after an existing pending-insert run
at the same boundary); visible segments advance while
`seen + cur->length <= pos`, with a split when the position falls strictly
inside one. -/
def addWalk (pos : Nat) (ins : Segment) : Nat → List Segment → List Segment
  | _, [] => [ins]
  | seen, c :: rest =>
    if c.state = SegState.pendingIns then
      c :: addWalk pos ins seen rest
    else if seen + c.content.length ≤ pos then
      c :: addWalk pos ins (seen + c.content.length) rest
    else if seen < pos ∧ pos < seen + c.content.length then
      { c with content := c.content.take (pos - seen) } :: ins ::
        ({ c with content := c.content.drop (pos - seen) } :: rest)
    else
      ins :: c :: rest

/-- Function `add_text`: materialise the working list and insert via
`addWalk`.  It performs no position validation and always returns
`SUCCESS`. -/
def add_text (doc : Document) (pos : Nat) (str : List Char) : Int × Document :=
  (SUCCESS,
    { doc with working := addWalk pos { content := str, state := SegState.pendingIns } 0 (effWorking doc) })

/-- Deletion loop of `remove_text` (the `while (cur && remain > 0)` loop),
with fuel standing in for pointer iteration.  `PENDING_INS` segments are
skipped; a tail split inserts the segment after the deletion range; a head
split (`off > 0`) physically truncates; a whole-range segment is marked
`PENDING_DEL` keeping its full content. -/
def removeDel (pos : Nat) : Nat → Nat → Nat → List Segment → List Segment
  | 0, _, _, l => l
  | _ + 1, _, _, [] => []
  | fuel + 1, remain, seen, c :: rest =>
    if remain = 0 then c :: rest
    else if c.state = SegState.pendingIns then c :: removeDel pos fuel remain seen rest
    else
      let off := if seen < pos then pos - seen else 0
      let dellen := min (c.content.length - off) remain
      if 0 < off then
        if off + dellen < c.content.length then
          { c with content := c.content.take off } ::
            removeDel pos fuel (remain - dellen) (seen + off + dellen)
              ({ c with content := c.content.drop (off + dellen) } :: rest)
        else
          { c with content := c.content.take off } ::
            removeDel pos fuel (remain - dellen) (seen + off + dellen) rest
      else
        if off + dellen < c.content.length then
          { c with state := SegState.pendingDel } ::
            removeDel pos fuel (remain - dellen) (seen + dellen)
              ({ c with content := c.content.drop (off + dellen) } :: rest)
        else
          { c with state := SegState.pendingDel } ::
            removeDel pos fuel (remain - dellen) (seen + dellen) rest

/-- Search loop of `remove_text`: skip `PENDING_INS` segments and visible
segments wholly before `pos`, then run the deletion loop.  The fuel given to
`removeDel` exceeds the number of iterations it can make (each iteration
either consumes a list node or, after a split, has `remain = 0`). -/
def removeFind (pos len : Nat) : Nat → List Segment → List Segment
  | _, [] => []
  | seen, c :: rest =>
    if c.state = SegState.pendingIns ∨ seen + c.content.length ≤ pos then
      c :: removeFind pos len (if c.state = SegState.pendingIns then seen else seen + c.content.length) rest
    else
      removeDel pos (rest.length + len + 3) len seen (c :: rest)

/-- Function `remove_text`: materialise the working list and run the find and
delete loops.  It performs no bounds check on `pos + len` and always returns
`SUCCESS`. -/
def remove_text (doc : Document) (pos len : Nat) : Int × Document :=
  (SUCCESS, { doc with working := removeFind pos len 0 (effWorking doc) })

/-- Function `markdown_insert`: version gate, then `put_text`. -/
def markdown_insert (doc : Document) (version pos : Nat) (content : List Char) : Int × Document :=
  let r := validate_version_op doc version
  if r ≠ SUCCESS then (r, doc) else put_text doc pos content

/-- Function `markdown_delete`: version gate, then `remove_text`. -/
def markdown_delete (doc : Document) (version pos len : Nat) : Int × Document :=
  let r := validate_version_op doc version
  if r ≠ SUCCESS then (r, doc) else remove_text doc pos len

/-- Function `markdown_newline`: version gate, then `add_text` of a newline. -/
def markdown_newline (doc : Document) (version pos : Nat) : Int × Document :=
  let r := validate_version_op doc version
  if r ≠ SUCCESS then (r, doc) else add_text doc pos ['\n']

/-- First walk of `markdown_heading`: advance while
`count + cur->length < pos`, returning the segment stopped at (if any) and
the running count. -/
def headingScan1 (pos : Nat) : Nat → List Segment → Option Segment × Nat
  | count, [] => (none, count)
  | count, c :: rest =>
    if count + c.content.length < pos then headingScan1 pos (count + c.content.length) rest
    else (some c, count)

/-- Second walk of `markdown_heading` (the at-end fallback): advance while
`total + cur->length < count`. -/
def headingScan2 (count : Nat) : Nat → List Segment → Option Segment
  | _, [] => none
  | total, c :: rest =>
    if count ≤ total + c.content.length then some c
    else headingScan2 count (total + c.content.length) rest

/-- Previous-character computation of `markdown_heading` for `pos > 0`,
defaulting to NUL exactly as the C variable `prev_char`. -/
def headingPrevChar (w : List Segment) (pos : Nat) : Char :=
  match headingScan1 pos 0 w with
  | (some c, count) =>
    if count < pos ∧ pos - count ≤ c.content.length then c.content.getD (pos - count - 1) NUL
    else NUL
  | (none, count) =>
    if 0 < count then
      match headingScan2 count 0 w with
      | some c => if 0 < c.content.length then c.content.getD (c.content.length - 1) NUL else NUL
      | none => NUL
    else NUL

/-- Function `markdown_heading`: version gate, level check, lazy sync,
optional newline insertion, then the `#`-marker insertion via `add_text`. -/
def markdown_heading (doc : Document) (version level pos : Nat) : Int × Document :=
  let r := validate_version_op doc version
  if r ≠ SUCCESS then (r, doc)
  else if level < 1 ∨ 3 < level then (INVALID_CURSOR_POS, doc)
  else
    let w := effWorking doc
    let d0 := { doc with working := w }
    let needsNl := if 0 < pos then headingPrevChar w pos ≠ '\n' else False
    let hstr := List.replicate level '#' ++ [' ']
    if needsNl then
      let r1 := (add_text d0 pos ['\n']).1
      let d1 := (add_text d0 pos ['\n']).2
      if r1 ≠ SUCCESS then (r1, d1) else add_text d1 (pos + 1) hstr
    else add_text d0 pos hstr

/-- Function `needs_newline_before`: true when `pos > 0` and the byte before
`pos` in the flat view is not a newline. -/
def needs_newline_before (flat : List Char) (pos : Nat) : Bool :=
  if pos = 0 then false else flat.getD (pos - 1) NUL ≠ '\n'

/-- Function `insert_block_element`: validate `pos` against the committed
flatten's length, then `add_text` the marker, with a leading newline when
needed. -/
def insert_block_element (doc : Document) (pos : Nat) (marker : List Char) : Int × Document :=
  let flat := markdown_flatten doc
  if flat.length < pos then (INVALID_CURSOR_POS, doc)
  else if needs_newline_before flat pos then add_text doc pos ('\n' :: marker)
  else add_text doc pos marker

/-- Function `apply_range_format`: insert the closing marker at `end` first,
then the opening marker at `start`. -/
def apply_range_format (doc : Document) (start endPos : Nat) (marker : List Char) : Int × Document :=
  let r1 := (add_text doc endPos marker).1
  let d1 := (add_text doc endPos marker).2
  if r1 ≠ SUCCESS then (r1, d1) else add_text d1 start marker

/-- Function `markdown_bold`. -/
def markdown_bold (doc : Document) (version start endPos : Nat) : Int × Document :=
  let r := validate_range_op doc version start endPos
  if r ≠ SUCCESS then (r, doc) else apply_range_format doc start endPos ['*', '*']

/-- Function `markdown_italic`. -/
def markdown_italic (doc : Document) (version start endPos : Nat) : Int × Document :=
  let r := validate_range_op doc version start endPos
  if r ≠ SUCCESS then (r, doc) else apply_range_format doc start endPos ['*']

/-- Function `markdown_code` (the marker is the backquote character). -/
def markdown_code (doc : Document) (version start endPos : Nat) : Int × Document :=
  let r := validate_range_op doc version start endPos
  if r ≠ SUCCESS then (r, doc) else apply_range_format doc start endPos [Char.ofNat 96]

/-- Function `markdown_blockquote`: version gate, then block insert of
the quote marker. -/
def markdown_blockquote (doc : Document) (version pos : Nat) : Int × Document :=
  if doc.version ≠ version then (OUTDATED_VERSION, doc)
  else insert_block_element doc pos ['>', ' ']

/-- Function `markdown_unordered_list`: version gate, then block insert of
the dash marker. -/
def markdown_unordered_list (doc : Document) (version pos : Nat) : Int × Document :=
  if doc.version ≠ version then (OUTDATED_VERSION, doc)
  else insert_block_element doc pos ['-', ' ']

/-- Function `markdown_horizontal_rule`: version gate, then block insert of
the rule including its trailing newline. -/
def markdown_horizontal_rule (doc : Document) (version pos : Nat) : Int × Document :=
  if doc.version ≠ version then (OUTDATED_VERSION, doc)
  else insert_block_element doc pos ['-', '-', '-', '\n']

/-- Function `markdown_link`: range validation, closing bracket and URL at
`end` first, then the opening bracket at `start`. -/
def markdown_link (doc : Document) (version start endPos : Nat) (url : List Char) : Int × Document :=
  let r := validate_range_op doc version start endPos
  if r ≠ SUCCESS then (r, doc)
  else
    let suffix := [']', '('] ++ url ++ [')']
    let r1 := (add_text doc endPos suffix).1
    let d1 := (add_text doc endPos suffix).2
    if r1 ≠ SUCCESS then (r1, d1) else add_text d1 start ['[']

/-- Length of the run of ASCII digits at the head of a character list
(the `while (isdigit(flat[i + n])) n++` loops). -/
def digitRun : List Char → Nat
  | [] => 0
  | c :: r => if c.isDigit then digitRun r + 1 else 0

/-- Decimal value of the leading digit run (the `atoi` call on a string that
starts with a digit). -/
def digitsVal : Nat → List Char → Nat
  | acc, [] => acc
  | acc, c :: r => if c.isDigit then digitsVal (acc * 10 + (c.toNat - 48)) r else acc

/-- Value `atoi(flat + i)` for a digit run starting at index `i`. -/
def atoiAt (flat : List Char) (i : Nat) : Nat :=
  digitsVal 0 (flat.drop i)

/-- Backward scan of `markdown_ordered_list` for the start of the previous
line: with argument `i + 1` it inspects index `i`, stepping down to 0, and
returns `j + 1` for the first newline found at index `j`. -/
def prevLineStart (flat : List Char) : Nat → Nat
  | 0 => 0
  | i + 1 => if flat.getD i NUL = '\n' then i + 1 else prevLineStart flat i

/-- Decimal digits of a natural number, fuel variant so that the kernel can
evaluate it (the `snprintf("%d. ")` formatting). -/
def natCharsAux : Nat → Nat → List Char
  | 0, _ => []
  | fuel + 1, n =>
    if n < 10 then [Char.ofNat (48 + n)]
    else natCharsAux fuel (n / 10) ++ [Char.ofNat (48 + n % 10)]

/-- Decimal digits of a natural number. -/
def natChars (n : Nat) : List Char := natCharsAux (n + 1) n

/-- Forward newline scan of the renumber loop, fuel variant: first index
`j ≥ scan` with a newline, else the flat length (or `scan` itself when it is
already past the end, exactly as the C loop leaves `next_line`). -/
def findNlAux (flat : List Char) : Nat → Nat → Nat
  | 0, scan => scan
  | fuel + 1, scan =>
    if scan < flat.length then
      if flat.getD scan NUL = '\n' then scan else findNlAux flat fuel (scan + 1)
    else scan

/-- Forward newline scan of the renumber loop. -/
def findNl (flat : List Char) (scan : Nat) : Nat :=
  findNlAux flat (flat.length + 1 - scan) scan

/-- Renumber loop of `markdown_ordered_list`, walking the stale flatten taken
at entry: each subsequent `digits. ` line has its old numeric marker removed
and the next sequence number inserted, until a non-item line. -/
def renumberLoop (flat : List Char) : Nat → Nat → Nat → Document → Document
  | 0, _, _, doc => doc
  | fuel + 1, scan, nextNum, doc =>
    if scan < flat.length then
      let nl := findNl flat scan
      if flat.length ≤ nl then doc
      else
        let nline := nl + 1
        if (flat.getD nline NUL).isDigit then
          let n := digitRun (flat.drop nline)
          if flat.getD (nline + n) NUL = '.' ∧ flat.getD (nline + n + 1) NUL = ' ' then
            let npfx := natChars nextNum ++ ['.', ' ']
            let d1 := (remove_text doc nline (n + 2)).2
            let d2 := (add_text d1 nline npfx).2
            renumberLoop flat fuel (nline + npfx.length) (nextNum + 1) d2
          else doc
        else doc
    else doc

/-- Function `markdown_ordered_list`: version gate, position check against
the committed flatten, autonumbered item insertion, then the renumber loop
over the stale flatten. -/
def markdown_ordered_list (doc : Document) (version pos : Nat) : Int × Document :=
  if doc.version ≠ version then (OUTDATED_VERSION, doc)
  else
    let flat := markdown_flatten doc
    if flat.length < pos then (INVALID_CURSOR_POS, doc)
    else
      let atLineStart := pos = 0 ∨ flat.getD (pos - 1) NUL = '\n'
      let prevNum :=
        if pos = 0 then 0
        else
          let pls := prevLineStart flat (pos - 1)
          if (flat.getD pls NUL).isDigit then
            let n := digitRun (flat.drop pls)
            if flat.getD (pls + n) NUL = '.' ∧ flat.getD (pls + n + 1) NUL = ' ' then atoiAt flat pls
            else 0
          else 0
      let newNum := prevNum + 1
      let pfx := (if atLineStart then [] else ['\n']) ++ natChars newNum ++ ['.', ' ']
      let res := (add_text doc pos pfx).1
      let d1 := (add_text doc pos pfx).2
      if res ≠ SUCCESS then (res, d1)
      else (SUCCESS, renumberLoop flat (flat.length + 1) (pos + pfx.length) (newNum + 1) d1)

/-- Queued command shapes accepted by `execute_queued_command` in server.c:
the twelve edit commands, a known edit keyword whose arguments fail to parse
(`badArgs`), and an unrecognised command word (`unknown`). -/
inductive Cmd where
  | insert (pos : Nat) (text : List Char)
  | del (pos len : Nat)
  | newline (pos : Nat)
  | heading (level pos : Nat)
  | bold (start endPos : Nat)
  | italic (start endPos : Nat)
  | blockquote (pos : Nat)
  | orderedList (pos : Nat)
  | unorderedList (pos : Nat)
  | code (start endPos : Nat)
  | horizontalRule (pos : Nat)
  | link (start endPos : Nat) (url : List Char)
  | badArgs
  | unknown
deriving DecidableEq

/-- Membership of the command's keyword in the `write_commands` table of
`execute_queued_command`: every edit keyword requires write permission,
an unrecognised keyword does not. -/
def requiresWrite : Cmd → Bool
  | Cmd.unknown => false
  | _ => true

/-- Mapping from a document return code to the wire result string (the final
`switch` of `execute_queued_command`). -/
def resultOfRet (ret : Int) : String :=
  if ret = SUCCESS then "SUCCESS"
  else if ret = INVALID_CURSOR_POS then "Reject INVALID_POSITION"
  else if ret = DELETED_POSITION then "Reject DELETED_POSITION"
  else if ret = OUTDATED_VERSION then "Reject OUTDATED_VERSION"
  else "Reject INVALID_POSITION"

/-- Function `execute_queued_command`: permission check first (reject
`Reject UNAUTHORISED` without touching the document), then dispatch to the
document operation using the document's current version; parse failures and
unknown commands map to `Reject INVALID_POSITION`. -/
def execute_queued_command (perm : Bool) (cmd : Cmd) (doc : Document) : String × Document :=
  if requiresWrite cmd && !perm then ("Reject UNAUTHORISED", doc)
  else
    match cmd with
    | Cmd.insert pos text =>
      let p := markdown_insert doc doc.version pos text
      (resultOfRet p.1, p.2)
    | Cmd.del pos len =>
      let p := markdown_delete doc doc.version pos len
      (resultOfRet p.1, p.2)
    | Cmd.newline pos =>
      let p := markdown_newline doc doc.version pos
      (resultOfRet p.1, p.2)
    | Cmd.heading level pos =>
      let p := markdown_heading doc doc.version level pos
      (resultOfRet p.1, p.2)
    | Cmd.bold s e =>
      let p := markdown_bold doc doc.version s e
      (resultOfRet p.1, p.2)
    | Cmd.italic s e =>
      let p := markdown_italic doc doc.version s e
      (resultOfRet p.1, p.2)
    | Cmd.blockquote pos =>
      let p := markdown_blockquote doc doc.version pos
      (resultOfRet p.1, p.2)
    | Cmd.orderedList pos =>
      let p := markdown_ordered_list doc doc.version pos
      (resultOfRet p.1, p.2)
    | Cmd.unorderedList pos =>
      let p := markdown_unordered_list doc doc.version pos
      (resultOfRet p.1, p.2)
    | Cmd.code s e =>
      let p := markdown_code doc doc.version s e
      (resultOfRet p.1, p.2)
    | Cmd.horizontalRule pos =>
      let p := markdown_horizontal_rule doc doc.version pos
      (resultOfRet p.1, p.2)
    | Cmd.link s e url =>
      let p := markdown_link doc doc.version s e url
      (resultOfRet p.1, p.2)
    | Cmd.badArgs => ("Reject INVALID_POSITION", doc)
    | Cmd.unknown => ("Reject INVALID_POSITION", doc)

/-- Sequential application of a drained batch, in queue order (the command
loop of `broadcast_thread`, commands paired with the issuing user's
permission bit). -/
def processBatch : Document → List (Bool × Cmd) → Document
  | doc, [] => doc
  | doc, (perm, cmd) :: rest => processBatch (execute_queued_command perm cmd doc).2 rest

/-- One tick of `broadcast_thread` on a drained batch: apply every command,
then call `markdown_increment_version` when at least one command was
processed. -/
def broadcast_tick (doc : Document) (batch : List (Bool × Cmd)) : Document :=
  let d := processBatch doc batch
  if 0 < batch.length then markdown_increment_version d else d

/-! Helper lemmas about flattening, lengths and commit. -/

theorem flattenSegs_append (A B : List Segment) :
    flattenSegs (A ++ B) = flattenSegs A ++ flattenSegs B := by
  induction A with
  | nil => rfl
  | cons c A ih => simp [flattenSegs, ih]

theorem length_flattenSegs (l : List Segment) :
    (flattenSegs l).length = segsLen l := by
  induction l with
  | nil => rfl
  | cons c l ih => simp [flattenSegs, segsLen, ih]

theorem visLen_append (A B : List Segment) :
    visLen (A ++ B) = visLen A + visLen B := by
  induction A with
  | nil => simp [visLen]
  | cons c A ih => simp [visLen, ih]; omega

theorem visLen_eq_segsLen_of_original (l : List Segment)
    (h : ∀ s ∈ l, s.state = SegState.original) : visLen l = segsLen l := by
  induction l with
  | nil => rfl
  | cons c l ih =>
    have hc : c.state = SegState.original := h c (by simp)
    simp [visLen, segsLen, hc, ih fun s hs => h s (by simp [hs])]

theorem syncSegs_original (l : List Segment) :
    ∀ s ∈ syncSegs l, s.state = SegState.original := by
  simp [syncSegs]

theorem flattenSegs_syncSegs (l : List Segment) :
    flattenSegs (syncSegs l) = flattenSegs l := by
  induction l with
  | nil => rfl
  | cons c l ih => simp [syncSegs, flattenSegs] at ih ⊢; simp [ih]

theorem flattenVisible_eq_flattenSegs (l : List Segment)
    (h : ∀ s ∈ l, s.state ≠ SegState.pendingDel) : flattenVisible l = flattenSegs l := by
  induction l with
  | nil => rfl
  | cons c l ih =>
    have hc : c.state ≠ SegState.pendingDel := h c (by simp)
    simp [flattenVisible, flattenSegs, hc, ih fun s hs => h s (by simp [hs])]

theorem commit_states (w : List Segment) :
    ∀ s ∈ (w.filter (fun s => s.state ≠ SegState.pendingDel)).map
        (fun s => if s.state = SegState.pendingIns then { s with state := SegState.original } else s),
      s.state = SegState.original := by
  intro s hs
  simp only [List.mem_map, List.mem_filter] at hs
  obtain ⟨t, ⟨_, ht⟩, rfl⟩ := hs
  cases h : t.state with
  | original => simp [h]
  | pendingIns => simp [h]
  | pendingDel => simp [h] at ht

theorem commit_flatten (w : List Segment) :
    flattenSegs ((w.filter (fun s => s.state ≠ SegState.pendingDel)).map
        (fun s => if s.state = SegState.pendingIns then { s with state := SegState.original } else s)) =
      flattenVisible w := by
  induction w with
  | nil => rfl
  | cons c w ih =>
    by_cases hc : c.state = SegState.pendingDel
    · simp only [ne_eq, decide_not, List.filter_cons] at ih ⊢
      simp [flattenVisible, hc, ih]
    · by_cases hi : c.state = SegState.pendingIns <;>
        (simp only [ne_eq, decide_not, List.filter_cons] at ih ⊢;
         simp [flattenVisible, flattenSegs, hc, hi, ih])

/-! Version preservation: no edit operation changes `current_version`; only
`markdown_increment_version` does. -/

theorem version_put_text (doc : Document) (pos : Nat) (s : List Char) :
    (put_text doc pos s).2.version = doc.version := by
  simp only [put_text]
  split <;> rfl

theorem version_add_text (doc : Document) (pos : Nat) (s : List Char) :
    (add_text doc pos s).2.version = doc.version := rfl

theorem version_remove_text (doc : Document) (pos len : Nat) :
    (remove_text doc pos len).2.version = doc.version := rfl

theorem version_markdown_insert (doc : Document) (v pos : Nat) (s : List Char) :
    (markdown_insert doc v pos s).2.version = doc.version := by
  simp only [markdown_insert]
  split
  · rfl
  · exact version_put_text doc pos s

theorem version_markdown_delete (doc : Document) (v pos len : Nat) :
    (markdown_delete doc v pos len).2.version = doc.version := by
  simp only [markdown_delete]
  split <;> rfl

theorem version_markdown_newline (doc : Document) (v pos : Nat) :
    (markdown_newline doc v pos).2.version = doc.version := by
  simp only [markdown_newline]
  split <;> rfl

theorem version_markdown_heading (doc : Document) (v level pos : Nat) :
    (markdown_heading doc v level pos).2.version = doc.version := by
  simp only [markdown_heading]
  split
  · rfl
  · split
    · rfl
    · split
      · split <;> rfl
      · rfl

theorem version_insert_block_element (doc : Document) (pos : Nat) (marker : List Char) :
    (insert_block_element doc pos marker).2.version = doc.version := by
  simp only [insert_block_element]
  split
  · rfl
  · split <;> rfl

theorem version_apply_range_format (doc : Document) (start endPos : Nat) (marker : List Char) :
    (apply_range_format doc start endPos marker).2.version = doc.version := by
  simp only [apply_range_format]
  split <;> rfl

theorem version_markdown_bold (doc : Document) (v start endPos : Nat) :
    (markdown_bold doc v start endPos).2.version = doc.version := by
  simp only [markdown_bold]
  split
  · rfl
  · exact version_apply_range_format ..

theorem version_markdown_italic (doc : Document) (v start endPos : Nat) :
    (markdown_italic doc v start endPos).2.version = doc.version := by
  simp only [markdown_italic]
  split
  · rfl
  · exact version_apply_range_format ..

theorem version_markdown_code (doc : Document) (v start endPos : Nat) :
    (markdown_code doc v start endPos).2.version = doc.version := by
  simp only [markdown_code]
  split
  · rfl
  · exact version_apply_range_format ..

theorem version_markdown_blockquote (doc : Document) (v pos : Nat) :
    (markdown_blockquote doc v pos).2.version = doc.version := by
  simp only [markdown_blockquote]
  split
  · rfl
  · exact version_insert_block_element ..

theorem version_markdown_unordered_list (doc : Document) (v pos : Nat) :
    (markdown_unordered_list doc v pos).2.version = doc.version := by
  simp only [markdown_unordered_list]
  split
  · rfl
  · exact version_insert_block_element ..

theorem version_markdown_horizontal_rule (doc : Document) (v pos : Nat) :
    (markdown_horizontal_rule doc v pos).2.version = doc.version := by
  simp only [markdown_horizontal_rule]
  split
  · rfl
  · exact version_insert_block_element ..

theorem version_markdown_link (doc : Document) (v start endPos : Nat) (url : List Char) :
    (markdown_link doc v start endPos url).2.version = doc.version := by
  simp only [markdown_link]
  split
  · rfl
  · split <;> rfl

theorem version_renumberLoop (flat : List Char) :
    ∀ (fuel scan nextNum : Nat) (doc : Document),
      (renumberLoop flat fuel scan nextNum doc).version = doc.version := by
  intro fuel
  induction fuel with
  | zero => intro scan nextNum doc; rfl
  | succ fuel ih =>
    intro scan nextNum doc
    simp only [renumberLoop]
    split
    · split
      · rfl
      · split
        · split
          · exact ih ..
          · rfl
        · rfl
    · rfl

theorem version_pair_ite {c : Prop} [Decidable c] {r1 r2 : Int} {d1 d2 : Document} {n : Nat}
    (h1 : d1.version = n) (h2 : d2.version = n) :
    (if c then (r1, d1) else (r2, d2)).2.version = n := by
  split <;> assumption

theorem version_markdown_ordered_list (doc : Document) (v pos : Nat) :
    (markdown_ordered_list doc v pos).2.version = doc.version := by
  simp only [markdown_ordered_list]
  split
  · rfl
  · split
    · rfl
    · exact version_pair_ite rfl (version_renumberLoop ..)

theorem version_execute_queued_command (perm : Bool) (cmd : Cmd) (doc : Document) :
    (execute_queued_command perm cmd doc).2.version = doc.version := by
  unfold execute_queued_command
  split
  · rfl
  · cases cmd with
    | insert pos text => exact version_markdown_insert ..
    | del pos len => exact version_markdown_delete ..
    | newline pos => exact version_markdown_newline ..
    | heading level pos => exact version_markdown_heading ..
    | bold s e => exact version_markdown_bold ..
    | italic s e => exact version_markdown_italic ..
    | blockquote pos => exact version_markdown_blockquote ..
    | orderedList pos => exact version_markdown_ordered_list ..
    | unorderedList pos => exact version_markdown_unordered_list ..
    | code s e => exact version_markdown_code ..
    | horizontalRule pos => exact version_markdown_horizontal_rule ..
    | link s e url => exact version_markdown_link ..
    | badArgs => rfl
    | unknown => rfl

theorem version_processBatch (batch : List (Bool × Cmd)) :
    ∀ doc : Document, (processBatch doc batch).version = doc.version := by
  induction batch with
  | nil => intro doc; rfl
  | cons hd tl ih =>
    intro doc
    obtain ⟨perm, cmd⟩ := hd
    simp only [processBatch]
    rw [ih, version_execute_queued_command]

/-! Claim theorems. -/

/-- Claim C4: after `markdown_increment_version` on a document that has a
working list, every surviving committed segment is in the `Original` state
(all `PendingDel` segments were dropped, all `PendingIns` converted to original), and
the flatten of the new committed list equals the flatten of the working list
immediately before commit with `PendingDel` segments ignored. -/
theorem C4_commit_promotes (doc : Document) (h : doc.working ≠ []) :
    (∀ s ∈ (markdown_increment_version doc).committed, s.state = SegState.original) ∧
    flattenSegs (markdown_increment_version doc).committed = flattenVisible doc.working := by
  simp only [markdown_increment_version, if_neg h]
  exact ⟨commit_states doc.working, commit_flatten doc.working⟩

/-- Witness for C4 at a concrete document whose working list holds one
pending insertion and one pending deletion. -/
theorem C4_commit_promotes_witness :
    (∀ s ∈ (markdown_increment_version
        { committed := [], working := [{ content := ['a'], state := SegState.pendingIns },
          { content := ['b'], state := SegState.pendingDel }], totalLength := 0, version := 0 }).committed,
        s.state = SegState.original) ∧
    flattenSegs (markdown_increment_version
        { committed := [], working := [{ content := ['a'], state := SegState.pendingIns },
          { content := ['b'], state := SegState.pendingDel }], totalLength := 0, version := 0 }).committed =
      flattenVisible [{ content := ['a'], state := SegState.pendingIns },
        { content := ['b'], state := SegState.pendingDel }] :=
  C4_commit_promotes
    { committed := [], working := [{ content := ['a'], state := SegState.pendingIns },
      { content := ['b'], state := SegState.pendingDel }], totalLength := 0, version := 0 }
    (by decide)

/-- Claim C5: every edit operation called with a version argument different
from the document's current version returns `OUTDATED_VERSION` and leaves
the document (in particular its working list) unchanged. -/
theorem C5_version_gate (doc : Document) (v pos len level start endPos : Nat)
    (content url : List Char) (hv : v ≠ doc.version) :
    markdown_insert doc v pos content = (OUTDATED_VERSION, doc) ∧
    markdown_delete doc v pos len = (OUTDATED_VERSION, doc) ∧
    markdown_newline doc v pos = (OUTDATED_VERSION, doc) ∧
    markdown_heading doc v level pos = (OUTDATED_VERSION, doc) ∧
    markdown_bold doc v start endPos = (OUTDATED_VERSION, doc) ∧
    markdown_italic doc v start endPos = (OUTDATED_VERSION, doc) ∧
    markdown_code doc v start endPos = (OUTDATED_VERSION, doc) ∧
    markdown_blockquote doc v pos = (OUTDATED_VERSION, doc) ∧
    markdown_ordered_list doc v pos = (OUTDATED_VERSION, doc) ∧
    markdown_unordered_list doc v pos = (OUTDATED_VERSION, doc) ∧
    markdown_horizontal_rule doc v pos = (OUTDATED_VERSION, doc) ∧
    markdown_link doc v start endPos url = (OUTDATED_VERSION, doc) := by
  have hv' : doc.version ≠ v := fun h => hv h.symm
  have hg : validate_version_op doc v = OUTDATED_VERSION := by
    simp [validate_version_op, hv]
  have hgs : validate_version_op doc v ≠ SUCCESS := by
    rw [hg]; decide
  have hr : validate_range_op doc v start endPos = OUTDATED_VERSION := by
    simp only [validate_range_op, hg]
    rw [if_pos (by rw [hg] at hgs; exact hgs)]
  refine ⟨?_, ?_, ?_, ?_, ?_, ?_, ?_, ?_, ?_, ?_, ?_, ?_⟩ <;>
    simp only [markdown_insert, markdown_delete, markdown_newline, markdown_heading,
      markdown_bold, markdown_italic, markdown_code, markdown_blockquote,
      markdown_ordered_list, markdown_unordered_list, markdown_horizontal_rule,
      markdown_link, hg, hr, if_pos hgs, if_pos hv']
  all_goals rfl

/-- Witness for C5 at the initial document with stale version 1. -/
theorem C5_version_gate_witness :
    markdown_insert markdown_init 1 0 ['a'] = (OUTDATED_VERSION, markdown_init) ∧
    markdown_delete markdown_init 1 0 1 = (OUTDATED_VERSION, markdown_init) ∧
    markdown_newline markdown_init 1 0 = (OUTDATED_VERSION, markdown_init) ∧
    markdown_heading markdown_init 1 2 0 = (OUTDATED_VERSION, markdown_init) ∧
    markdown_bold markdown_init 1 0 1 = (OUTDATED_VERSION, markdown_init) ∧
    markdown_italic markdown_init 1 0 1 = (OUTDATED_VERSION, markdown_init) ∧
    markdown_code markdown_init 1 0 1 = (OUTDATED_VERSION, markdown_init) ∧
    markdown_blockquote markdown_init 1 0 = (OUTDATED_VERSION, markdown_init) ∧
    markdown_ordered_list markdown_init 1 0 = (OUTDATED_VERSION, markdown_init) ∧
    markdown_unordered_list markdown_init 1 0 = (OUTDATED_VERSION, markdown_init) ∧
    markdown_horizontal_rule markdown_init 1 0 = (OUTDATED_VERSION, markdown_init) ∧
    markdown_link markdown_init 1 0 1 ['u'] = (OUTDATED_VERSION, markdown_init) :=
  C5_version_gate markdown_init 1 0 1 2 0 1 ['a'] ['u'] (by decide)

/-- Claim C9: a batch command from a user without write permission, when the
command is an edit command (its keyword is in the `write_commands` table),
records the result `Reject UNAUTHORISED` and leaves the document untouched. -/
theorem C9_reject_unauthorised (perm : Bool) (cmd : Cmd) (doc : Document)
    (hp : perm = false) (he : requiresWrite cmd = true) :
    execute_queued_command perm cmd doc = ("Reject UNAUTHORISED", doc) := by
  simp [execute_queued_command, hp, he]

/-- Witness for C9: a read-only user issuing `BOLD 0 5`, as in the spec
scenario. -/
theorem C9_reject_unauthorised_witness :
    execute_queued_command false (Cmd.bold 0 5) markdown_init =
      ("Reject UNAUTHORISED", markdown_init) :=
  C9_reject_unauthorised false (Cmd.bold 0 5) markdown_init rfl (by decide)

/-- Claim C10: when no edit has materialised a working list since the last
commit, `markdown_increment_version` is a complete no-op: version, committed
list and `total_length` are all unchanged. -/
theorem C10_commit_noop (doc : Document) (h : doc.working = []) :
    markdown_increment_version doc = doc := by
  simp [markdown_increment_version, h]

/-- Witness for C10 at the initial document. -/
theorem C10_commit_noop_witness :
    markdown_increment_version markdown_init = markdown_init :=
  C10_commit_noop markdown_init rfl

/-- Counterexample to claim C1: on the empty document at version 0,
`markdown_delete` with `pos = 0`, `len = 1` (so `pos + len` exceeds the
visible length 0) returns `SUCCESS`, not `INVALID_POSITION`. -/
theorem C1_counterexample :
    (markdown_delete markdown_init 0 0 1).1 = SUCCESS ∧
    (markdown_delete markdown_init 0 0 1).1 ≠ INVALID_CURSOR_POS := by
  decide

/-- Counterexample to claim C2: inserting `"a"` then `"b"` at position 0 of
the empty document in one tick and committing yields `"ba"`, not `"ab"`:
`put_text` places the second insertion before the pending run, so
same-position insertions commit in reverse arrival order. -/
theorem C2_counterexample :
    flattenSegs (markdown_increment_version
        (markdown_insert (markdown_insert markdown_init 0 0 ['a']).2 0 0 ['b']).2).committed =
      ['b', 'a'] ∧
    flattenSegs (markdown_increment_version
        (markdown_insert (markdown_insert markdown_init 0 0 ['a']).2 0 0 ['b']).2).committed ≠
      ['a', 'b'] := by
  decide

/-- Counterexample to claim C3: a non-empty tick consisting of one
unauthorised `BOLD 0 5` command leaves the document state untouched, the
working list stays NULL, and `markdown_increment_version` is a no-op, so the
version does not increase. -/
theorem C3_counterexample :
    (broadcast_tick markdown_init [(false, Cmd.bold 0 5)]).version ≠
      markdown_init.version + 1 := by
  decide

/-- Counterexample to claim C6: after inserting `"XY"` at position 0 of the
empty document, deleting the range `[0, 2)` in the same tick leaves the
`PendingIns` segment untouched (it is skipped, not marked `PendingDel`), and
the commit still flattens to `"XY"`. -/
theorem C6_counterexample :
    (markdown_delete (markdown_insert markdown_init 0 0 ['X', 'Y']).2 0 0 2).2.working =
      [{ content := ['X', 'Y'], state := SegState.pendingIns }] ∧
    flattenSegs (markdown_increment_version
        (markdown_delete (markdown_insert markdown_init 0 0 ['X', 'Y']).2 0 0 2).2).committed =
      ['X', 'Y'] := by
  decide

/-- Counterexample to claim C7: `markdown_newline` at position 5 of the empty
document (visible length 0) returns `SUCCESS` and changes the document (the
newline is appended at the end), instead of rejecting with
`INVALID_POSITION`. -/
theorem C7_counterexample :
    (markdown_newline markdown_init 0 5).1 = SUCCESS ∧
    (markdown_newline markdown_init 0 5).2 ≠ markdown_init := by
  decide

/-- Counterexample to claim C8: three `ordered_list` insertions at position 0
of the empty document within one tick commit to `"1. 1. 1. "`, not
`"1. \n2. \n3. "`: each call reads the committed flatten, which stays empty
for the whole tick. -/
theorem C8_counterexample :
    markdown_flatten (markdown_increment_version
        (markdown_ordered_list (markdown_ordered_list
          (markdown_ordered_list markdown_init 0 0).2 0 0).2 0 0).2) ≠
      ['1', '.', ' ', '\n', '2', '.', ' ', '\n', '3', '.', ' '] := by
  decide

/-- Claim C8 as amended: starting from the empty document at version 0, three
`ordered_list` insertions at position 0 within one tick (each seeing
version 0) commit to `"1. 1. 1. "` at version 1: each call autonumbers
against the committed flatten, which is empty throughout the tick, so every
item gets number 1, no newline is inserted (position 0 is a line start), and
the renumber loop finds no later lines. -/
theorem C8_amended :
    markdown_flatten (markdown_increment_version
        (markdown_ordered_list (markdown_ordered_list
          (markdown_ordered_list markdown_init 0 0).2 0 0).2 0 0).2) =
      ['1', '.', ' ', '1', '.', ' ', '1', '.', ' '] ∧
    (markdown_increment_version
        (markdown_ordered_list (markdown_ordered_list
          (markdown_ordered_list markdown_init 0 0).2 0 0).2 0 0).2).version = 1 := by
  decide

/-! Lemmas for the delete path. -/

theorem markdown_insert_current (doc : Document) (pos : Nat) (s : List Char) :
    markdown_insert doc doc.version pos s = put_text doc pos s := by
  simp [markdown_insert, validate_version_op]

theorem markdown_delete_current (doc : Document) (pos len : Nat) :
    markdown_delete doc doc.version pos len = remove_text doc pos len := by
  simp [markdown_delete, validate_version_op]

theorem removeFind_of_ge (l : List Segment) :
    ∀ (pos len seen : Nat), seen + visLen l ≤ pos → removeFind pos len seen l = l := by
  induction l with
  | nil => intro pos len seen h; rfl
  | cons c rest ih =>
    intro pos len seen h
    by_cases hc : c.state = SegState.pendingIns
    · have h' : seen + visLen rest ≤ pos := by
        simp [visLen, hc] at h; omega
      simp only [removeFind]
      rw [if_pos (Or.inl hc), if_pos hc, ih pos len seen h']
    · have hlen : seen + c.content.length ≤ pos := by
        simp [visLen, hc] at h; omega
      have h' : seen + c.content.length + visLen rest ≤ pos := by
        simp [visLen, hc] at h; omega
      simp only [removeFind]
      rw [if_pos (Or.inr hlen), if_neg hc, ih pos len _ h']

/-- Claim C1 as amended: `markdown_delete` with the current version always
returns `SUCCESS` (the code performs no `pos + len` bound check), and in the
case `pos ≥` the visible length nothing is marked: the working list is left
exactly as materialised. -/
theorem C1_amended (doc : Document) (v pos len : Nat) (hv : v = doc.version) :
    (markdown_delete doc v pos len).1 = SUCCESS ∧
    (visLen (effWorking doc) ≤ pos →
      (markdown_delete doc v pos len).2 = { doc with working := effWorking doc }) := by
  subst hv
  rw [markdown_delete_current]
  refine ⟨rfl, fun h => ?_⟩
  simp only [remove_text]
  rw [removeFind_of_ge _ pos len 0 (by omega)]

/-- Witness for C1 at the empty document, `pos = 3`, `len = 5`. -/
theorem C1_amended_witness :
    (markdown_delete markdown_init 0 3 5).1 = SUCCESS ∧
    (markdown_delete markdown_init 0 3 5).2 = { markdown_init with working := effWorking markdown_init } :=
  ⟨(C1_amended markdown_init 0 3 5 rfl).1,
    (C1_amended markdown_init 0 3 5 rfl).2 (by decide)⟩

/-! Lemmas for pending-insert preservation under delete. -/

/-- Sublist of the `PENDING_INS` segments of a working list. -/
def pendingInserts (l : List Segment) : List Segment :=
  l.filter (fun s => s.state = SegState.pendingIns)

theorem pendingInserts_removeDel (pos : Nat) :
    ∀ (fuel remain seen : Nat) (l : List Segment),
      pendingInserts (removeDel pos fuel remain seen l) = pendingInserts l := by
  intro fuel
  induction fuel with
  | zero => intro remain seen l; rfl
  | succ fuel ih =>
    intro remain seen l
    cases l with
    | nil => rfl
    | cons c rest =>
      simp only [removeDel]
      simp only [pendingInserts] at ih ⊢
      split_ifs with h1 h2 h3 h4 h5 <;>
        simp [List.filter_cons, ih, *]

theorem pendingInserts_removeFind (pos len : Nat) :
    ∀ (l : List Segment) (seen : Nat),
      pendingInserts (removeFind pos len seen l) = pendingInserts l := by
  intro l
  induction l with
  | nil => intro seen; rfl
  | cons c rest ih =>
    intro seen
    simp only [removeFind]
    split
    · simp only [pendingInserts] at ih ⊢
      by_cases hc : c.state = SegState.pendingIns <;>
        simp [List.filter_cons, hc, ih]
    · exact pendingInserts_removeDel pos _ len seen (c :: rest)

/-- Claim C6 as amended: delete positions count only non-`PendingIns` bytes
(the walk skips pending insertions without counting them), and `remove_text`
never marks a `PendingIns` segment `PendingDel`: the sublist of `PendingIns`
segments of the working list, contents included, is exactly preserved, so a
delete in the same tick cannot remove text that another command just
inserted. -/
theorem C6_amended (doc : Document) (v pos len : Nat) (hv : v = doc.version) :
    pendingInserts (markdown_delete doc v pos len).2.working =
      pendingInserts (effWorking doc) := by
  subst hv
  rw [markdown_delete_current]
  simp only [remove_text]
  exact pendingInserts_removeFind pos len (effWorking doc) 0

/-- Witness for C6: deleting over a freshly inserted segment keeps that
segment in the pending-insert sublist. -/
theorem C6_amended_witness :
    pendingInserts (markdown_delete (markdown_insert markdown_init 0 0 ['X', 'Y']).2 0 0 2).2.working =
      pendingInserts (effWorking (markdown_insert markdown_init 0 0 ['X', 'Y']).2) :=
  C6_amended (markdown_insert markdown_init 0 0 ['X', 'Y']).2 0 0 2 (by decide)

/-- Claim C7 as amended: among the position-taking operations only some
validate the position.  `markdown_insert` validates against the working
list's visible length and rejects `pos` beyond it with `INVALID_POSITION`,
leaving the document unchanged apart from the lazy materialisation of the
working list; `markdown_blockquote`, `markdown_ordered_list`,
`markdown_unordered_list` and `markdown_horizontal_rule` validate against
the committed flatten's length and reject with the document fully unchanged;
`markdown_newline` and `markdown_heading` perform no position validation
(see the counterexample). -/
theorem C7_amended (doc : Document) (v pos : Nat) (s : List Char) (hv : v = doc.version) :
    (visLen (effWorking doc) < pos →
      markdown_insert doc v pos s = (INVALID_CURSOR_POS, { doc with working := effWorking doc })) ∧
    ((markdown_flatten doc).length < pos →
      markdown_blockquote doc v pos = (INVALID_CURSOR_POS, doc) ∧
      markdown_unordered_list doc v pos = (INVALID_CURSOR_POS, doc) ∧
      markdown_horizontal_rule doc v pos = (INVALID_CURSOR_POS, doc) ∧
      markdown_ordered_list doc v pos = (INVALID_CURSOR_POS, doc)) := by
  subst hv
  constructor
  · intro h
    rw [markdown_insert_current]
    simp [put_text, h]
  · intro h
    refine ⟨?_, ?_, ?_, ?_⟩ <;>
      simp [markdown_blockquote, markdown_unordered_list, markdown_horizontal_rule,
        markdown_ordered_list, insert_block_element, h]

/-- Witness for C7 at the empty document and position 7. -/
theorem C7_amended_witness :
    markdown_insert markdown_init 0 7 ['z'] =
      (INVALID_CURSOR_POS, { markdown_init with working := effWorking markdown_init }) ∧
    markdown_blockquote markdown_init 0 7 = (INVALID_CURSOR_POS, markdown_init) ∧
    markdown_unordered_list markdown_init 0 7 = (INVALID_CURSOR_POS, markdown_init) ∧
    markdown_horizontal_rule markdown_init 0 7 = (INVALID_CURSOR_POS, markdown_init) ∧
    markdown_ordered_list markdown_init 0 7 = (INVALID_CURSOR_POS, markdown_init) := by
  have h := C7_amended markdown_init 0 7 ['z'] rfl
  have h1 := h.1 (by decide)
  have h2 := h.2 (by decide)
  exact ⟨h1, h2.1, h2.2.1, h2.2.2.1, h2.2.2.2⟩

/-- Claim C3 as amended: on every tick the version never decreases and grows
by at most 1; it increases by exactly 1 precisely when the batch is
non-empty and processing it left a non-empty working list.  A non-empty
batch whose commands all leave the document untouched (for example a single
unauthorised edit) keeps the working list NULL, making
`markdown_increment_version` a no-op, so the version does not change (see
the counterexample). -/
theorem C3_amended (doc : Document) (batch : List (Bool × Cmd)) :
    doc.version ≤ (broadcast_tick doc batch).version ∧
    (broadcast_tick doc batch).version ≤ doc.version + 1 ∧
    ((broadcast_tick doc batch).version = doc.version + 1 ↔
      batch ≠ [] ∧ (processBatch doc batch).working ≠ []) := by
  cases batch with
  | nil => simp [broadcast_tick, processBatch]
  | cons hd tl =>
    have hlen : 0 < (hd :: tl : List (Bool × Cmd)).length := by simp
    have hv : (processBatch doc (hd :: tl)).version = doc.version :=
      version_processBatch (hd :: tl) doc
    simp only [broadcast_tick, if_pos hlen]
    by_cases hw : (processBatch doc (hd :: tl)).working = []
    · simp [markdown_increment_version, hw, hv]
    · simp [markdown_increment_version, hw, hv]

/-! Lemmas about the `put_text` walk, used for the same-position insertion
ordering claim. -/

theorem putWalk_ne_nil (pos : Nat) (ins : Segment) (seen : Nat) (l : List Segment) :
    putWalk pos ins seen l ≠ [] := by
  cases l with
  | nil => simp [putWalk]
  | cons c rest =>
    simp only [putWalk]
    split_ifs <;> simp

theorem putWalk_no_del (pos : Nat) (ins : Segment) (hins : ins.state ≠ SegState.pendingDel)
    (l : List Segment) :
    ∀ (seen : Nat), (∀ s ∈ l, s.state ≠ SegState.pendingDel) →
      ∀ s ∈ putWalk pos ins seen l, s.state ≠ SegState.pendingDel := by
  induction l with
  | nil =>
    intro seen _ s hs
    simp [putWalk] at hs
    subst hs
    exact hins
  | cons c rest ih =>
    intro seen h s hs
    have hc := h c (by simp)
    have hr : ∀ t ∈ rest, t.state ≠ SegState.pendingDel := fun t ht => h t (by simp [ht])
    by_cases h1 : seen + c.content.length ≤ pos
    · simp only [putWalk, if_pos h1, List.mem_cons] at hs
      rcases hs with rfl | hs'
      · exact hc
      · exact ih _ hr s hs'
    · by_cases h2 : c.state ≠ SegState.pendingIns ∧ seen < pos ∧ pos < seen + c.content.length
      · simp only [putWalk, if_neg h1, if_pos h2, List.mem_cons] at hs
        rcases hs with rfl | rfl | rfl | hs'
        · exact hc
        · exact hins
        · exact hc
        · exact hr s hs'
      · simp only [putWalk, if_neg h1, if_neg h2, List.mem_cons] at hs
        rcases hs with rfl | rfl | hs'
        · exact hins
        · exact hc
        · exact hr s hs'

theorem putWalk_append_of_le (pos : Nat) (ins : Segment) :
    ∀ (A tail : List Segment) (seen : Nat),
      (∀ s ∈ A, s.state = SegState.original) → seen + segsLen A ≤ pos →
      putWalk pos ins seen (A ++ tail) = A ++ putWalk pos ins (seen + segsLen A) tail := by
  intro A
  induction A with
  | nil => intro tail seen _ _; simp [segsLen]
  | cons c A ih =>
    intro tail seen hA h
    have hc : c.state = SegState.original := hA c (by simp)
    have hcne : ¬ c.state = SegState.pendingIns := by simp [hc]
    have hseg : segsLen (c :: A) = c.content.length + segsLen A := rfl
    have h1 : seen + c.content.length ≤ pos := by omega
    have h2 : seen + c.content.length + segsLen A ≤ pos := by omega
    simp only [List.cons_append, putWalk, List.append_eq]
    rw [if_pos h1, if_neg hcne,
      ih tail (seen + c.content.length) (fun s hs => hA s (by simp [hs])) h2]
    simp [hseg, Nat.add_assoc]

theorem putWalk_split (pos : Nat) (ins : Segment) :
    ∀ (w : List Segment) (seen : Nat),
      (∀ s ∈ w, s.state = SegState.original) → seen ≤ pos → pos ≤ seen + segsLen w →
      ∃ A B, putWalk pos ins seen w = A ++ ins :: B ∧
        (∀ s ∈ A, s.state = SegState.original) ∧ (∀ s ∈ B, s.state = SegState.original) ∧
        flattenSegs A = (flattenSegs w).take (pos - seen) ∧
        flattenSegs B = (flattenSegs w).drop (pos - seen) := by
  intro w
  induction w with
  | nil =>
    intro seen _ h1 h2
    have hps : seen = pos := by simp [segsLen] at h2; omega
    subst hps
    exact ⟨[], [], by simp [putWalk], by simp, by simp,
      by simp [flattenSegs], by simp [flattenSegs]⟩
  | cons c rest ih =>
    intro seen hw h1 h2
    have hc : c.state = SegState.original := hw c (by simp)
    have hcne : ¬ c.state = SegState.pendingIns := by simp [hc]
    have hrest : ∀ s ∈ rest, s.state = SegState.original := fun s hs => hw s (by simp [hs])
    have hseg : segsLen (c :: rest) = c.content.length + segsLen rest := rfl
    by_cases hadv : seen + c.content.length ≤ pos
    · obtain ⟨A, B, heq, hA, hB, hfA, hfB⟩ :=
        ih (seen + c.content.length) hrest hadv (by omega)
      refine ⟨c :: A, B, ?_, ?_, hB, ?_, ?_⟩
      · simp only [putWalk]
        rw [if_pos hadv, if_neg hcne, heq]
        simp
      · intro s hs
        rcases List.mem_cons.mp hs with rfl | hs'
        · exact hc
        · exact hA s hs'
      · simp only [flattenSegs]
        rw [hfA, List.take_append_eq_append_take,
          List.take_of_length_le (by omega : c.content.length ≤ pos - seen),
          (by omega : pos - seen - c.content.length = pos - (seen + c.content.length))]
      · simp only [flattenSegs]
        rw [hfB, List.drop_append_eq_append_drop,
          List.drop_eq_nil_of_le (by omega : c.content.length ≤ pos - seen),
          (by omega : pos - seen - c.content.length = pos - (seen + c.content.length))]
        simp
    · have hlt : pos < seen + c.content.length := by omega
      by_cases hmid : seen < pos
      · refine ⟨[{ c with content := c.content.take (pos - seen) }],
          { c with content := c.content.drop (pos - seen) } :: rest, ?_, ?_, ?_, ?_, ?_⟩
        · simp only [putWalk]
          rw [if_neg hadv, if_pos ⟨hcne, hmid, hlt⟩]
          simp
        · intro s hs
          simp at hs
          subst hs
          exact hc
        · intro s hs
          rcases List.mem_cons.mp hs with rfl | hs'
          · exact hc
          · exact hrest s hs'
        · simp only [flattenSegs, List.append_nil]
          rw [List.take_append_eq_append_take,
            (by omega : pos - seen - c.content.length = 0)]
          simp
        · simp only [flattenSegs]
          rw [List.drop_append_eq_append_drop,
            (by omega : pos - seen - c.content.length = 0)]
          simp
      · have hps : seen = pos := by omega
        subst hps
        refine ⟨[], c :: rest, ?_, by simp, hw, by simp [flattenSegs], by simp [flattenSegs]⟩
        simp only [putWalk]
        rw [if_neg hadv, if_neg (by simp)]
        simp

theorem putWalk_flatten_ge (pos : Nat) (ins : Segment) :
    ∀ (l : List Segment) (seen : Nat), pos ≤ seen →
      flattenSegs (putWalk pos ins seen l) = ins.content ++ flattenSegs l := by
  intro l
  induction l with
  | nil => intro seen h; simp [putWalk, flattenSegs]
  | cons c rest ih =>
    intro seen h
    by_cases hadv : seen + c.content.length ≤ pos
    · have hcl : c.content.length = 0 := by omega
      have hpe : seen = seen := rfl
      have hcnil : c.content = [] := List.length_eq_zero.mp hcl
      have hseen : (if c.state = SegState.pendingIns then seen else seen + c.content.length) = seen := by
        rw [hcl]
        split <;> rfl
      simp only [putWalk]
      rw [if_pos hadv, hseen]
      simp only [flattenSegs]
      rw [ih seen h, hcnil]
      simp
    · have hcond : ¬ (c.state ≠ SegState.pendingIns ∧ seen < pos ∧ pos < seen + c.content.length) := by
        intro hcon
        exact absurd hcon.2.1 (not_lt.mpr h)
      simp only [putWalk]
      rw [if_neg hadv, if_neg hcond]
      simp [flattenSegs]

theorem putWalk_two_flatten (pos : Nat) (insA insB : Segment)
    (hA : insA.state = SegState.pendingIns) (B : List Segment) :
    flattenSegs (putWalk pos insB pos (insA :: B)) =
      insB.content ++ insA.content ++ flattenSegs B := by
  by_cases ha : insA.content.length = 0
  · have hnil : insA.content = [] := List.length_eq_zero.mp ha
    simp only [putWalk]
    rw [if_pos (by omega), if_pos hA]
    simp only [flattenSegs]
    rw [putWalk_flatten_ge pos insB B pos le_rfl, hnil]
    simp
  · simp only [putWalk]
    rw [if_neg (by omega), if_neg (by simp [hA])]
    simp [flattenSegs]

theorem put_twice_flatten (w : List Segment) (pos : Nat) (a b : List Char)
    (horig : ∀ s ∈ w, s.state = SegState.original) (hpos : pos ≤ segsLen w) :
    flattenSegs (putWalk pos { content := b, state := SegState.pendingIns } 0
        (putWalk pos { content := a, state := SegState.pendingIns } 0 w)) =
      (flattenSegs w).take pos ++ b ++ a ++ (flattenSegs w).drop pos ∧
    (∀ s ∈ putWalk pos { content := b, state := SegState.pendingIns } 0
        (putWalk pos { content := a, state := SegState.pendingIns } 0 w),
      s.state ≠ SegState.pendingDel) ∧
    visLen (putWalk pos { content := a, state := SegState.pendingIns } 0 w) = segsLen w := by
  obtain ⟨A, B, hsplit, hAorig, hBorig, hfA, hfB⟩ :=
    putWalk_split pos { content := a, state := SegState.pendingIns } w 0
      horig (Nat.zero_le pos) (by omega)
  simp only [Nat.sub_zero] at hfA hfB
  have hfw : (flattenSegs w).length = segsLen w := length_flattenSegs w
  have hlenA : segsLen A = pos := by
    rw [← length_flattenSegs, hfA, List.length_take]
    omega
  have hlenB : segsLen B = segsLen w - pos := by
    rw [← length_flattenSegs, hfB, List.length_drop]
    omega
  refine ⟨?_, ?_, ?_⟩
  · rw [hsplit, putWalk_append_of_le pos _ A _ 0 hAorig (by omega), Nat.zero_add, hlenA,
      flattenSegs_append, putWalk_two_flatten pos _ _ rfl B, hfA, hfB]
    simp [List.append_assoc]
  · apply putWalk_no_del pos _ (by simp) _ 0
    rw [hsplit]
    intro s hs
    rcases List.mem_append.mp hs with hsA | hsB
    · rw [hAorig s hsA]; simp
    · rcases List.mem_cons.mp hsB with rfl | hsB'
      · simp
      · rw [hBorig s hsB']; simp
  · rw [hsplit, visLen_append]
    have hvc : visLen ({ content := a, state := SegState.pendingIns } :: B) = visLen B := by
      simp [visLen]
    rw [hvc, visLen_eq_segsLen_of_original A hAorig, visLen_eq_segsLen_of_original B hBorig,
      hlenA, hlenB]
    omega

/-- Claim C2 as amended: starting a tick (no working list yet) with
`pos` within the document, `markdown_insert` of `a` at `pos` followed by
`markdown_insert` of `b` at the same `pos` in the same version commits to
the bytes of `b` immediately followed by the bytes of `a` at `pos`:
`put_text` places the second insertion before the existing `PendingIns` run
at that boundary, so same-position insertions in one tick commit in reverse
arrival order. -/
theorem C2_amended (doc : Document) (pos : Nat) (a b : List Char)
    (hw : doc.working = []) (hpos : pos ≤ (markdown_flatten doc).length) :
    flattenSegs (markdown_increment_version
        (markdown_insert (markdown_insert doc doc.version pos a).2 doc.version pos b).2).committed =
      (markdown_flatten doc).take pos ++ b ++ a ++ (markdown_flatten doc).drop pos ∧
    (markdown_increment_version
        (markdown_insert (markdown_insert doc doc.version pos a).2 doc.version pos b).2).version =
      doc.version + 1 := by
  have hew : effWorking doc = syncSegs doc.committed := by simp [effWorking, hw]
  have horig := syncSegs_original doc.committed
  have hsegw0 : segsLen (syncSegs doc.committed) = (markdown_flatten doc).length := by
    rw [← length_flattenSegs, flattenSegs_syncSegs]
    rfl
  have hflatw0 : flattenSegs (syncSegs doc.committed) = markdown_flatten doc :=
    flattenSegs_syncSegs doc.committed
  have hv0 : visLen (syncSegs doc.committed) = segsLen (syncSegs doc.committed) :=
    visLen_eq_segsLen_of_original _ horig
  obtain ⟨hflat2, hnodel2, hvis1⟩ :=
    put_twice_flatten (syncSegs doc.committed) pos a b horig (by omega)
  have hput1 : markdown_insert doc doc.version pos a =
      (SUCCESS, { doc with working := putWalk pos { content := a, state := SegState.pendingIns } 0 (syncSegs doc.committed) }) := by
    rw [markdown_insert_current]
    simp only [put_text, hew]
    rw [if_neg (by omega : ¬ visLen (syncSegs doc.committed) < pos)]
  have hW1ne : putWalk pos { content := a, state := SegState.pendingIns } 0
      (syncSegs doc.committed) ≠ [] := putWalk_ne_nil _ _ _ _
  have heff1 : effWorking { doc with working := putWalk pos { content := a, state := SegState.pendingIns } 0 (syncSegs doc.committed) } =
      putWalk pos { content := a, state := SegState.pendingIns } 0 (syncSegs doc.committed) := by
    simp [effWorking, hW1ne]
  have hput2 : markdown_insert { doc with working := putWalk pos { content := a, state := SegState.pendingIns } 0 (syncSegs doc.committed) } doc.version pos b =
      (SUCCESS, { doc with working := putWalk pos { content := b, state := SegState.pendingIns } 0 (putWalk pos { content := a, state := SegState.pendingIns } 0 (syncSegs doc.committed)) }) := by
    have hv : ({ doc with working := putWalk pos { content := a, state := SegState.pendingIns } 0 (syncSegs doc.committed) } : Document).version = doc.version := rfl
    rw [← hv, markdown_insert_current]
    simp only [put_text, heff1]
    rw [if_neg (by omega : ¬ visLen (putWalk pos { content := a, state := SegState.pendingIns } 0
      (syncSegs doc.committed)) < pos)]
  have hW2ne : putWalk pos { content := b, state := SegState.pendingIns } 0
      (putWalk pos { content := a, state := SegState.pendingIns } 0 (syncSegs doc.committed)) ≠ [] :=
    putWalk_ne_nil _ _ _ _
  refine ⟨?_, ?_⟩
  · simp only [hput1, hput2, markdown_increment_version]
    rw [if_neg hW2ne]
    rw [commit_flatten, flattenVisible_eq_flattenSegs _ hnodel2, hflat2, hflatw0]
  · simp only [hput1, hput2, markdown_increment_version]
    rw [if_neg hW2ne]

/-- Witness for C2: inserting `"a"` then `"b"` at position 0 of the empty
document commits to `"ba"` at version 1. -/
theorem C2_amended_witness :
    flattenSegs (markdown_increment_version
        (markdown_insert (markdown_insert markdown_init markdown_init.version 0 ['a']).2
          markdown_init.version 0 ['b']).2).committed =
      (markdown_flatten markdown_init).take 0 ++ ['b'] ++ ['a'] ++
        (markdown_flatten markdown_init).drop 0 ∧
    (markdown_increment_version
        (markdown_insert (markdown_insert markdown_init markdown_init.version 0 ['a']).2
          markdown_init.version 0 ['b']).2).version = markdown_init.version + 1 :=
  C2_amended markdown_init 0 ['a'] ['b'] rfl (by decide)
